import Mathlib

/-!
Verification of the `michis_undo_redo` crate (`src/lib.rs`): a generic
undo/redo history manager.  The Rust code is shallowly embedded below:

* the `Operation<For>` trait becomes the `Operation` type class, whose
  `apply : Op → For → For` is the pure counterpart of
  `fn apply(&self, item: &mut For)`;
* `Action<Op>` and `UndoRedo<Op>` become structures with the same fields
  (`Vec` becomes `List`, `usize` becomes `Nat`);
* methods mutating `&mut self` / `&mut For` become functions returning the
  new state; `redo`/`undo` return the updated history, the updated target,
  and the `Result<(), UndoRedoError>` value, so that state changes on the
  error path stay observable.
-/

namespace MichisUndoRedo

/-- Embeds the `Operation<For>` trait: one edit step applied to a target. -/
class Operation (Op : Type _) (For : Type _) where
  apply : Op → For → For

/-- Embeds `enum UndoRedoError { NothingToDo }`. -/
inductive UndoRedoError where
  | NothingToDo
deriving DecidableEq, Repr

/-- Embeds `struct Action<Op> { name, apply_ops, revert_ops }`. -/
structure Action (Op : Type _) where
  name : Option String
  apply_ops : List Op
  revert_ops : List Op
deriving DecidableEq, Repr

namespace Action

/-- Embeds `impl Default for Action<Op>`: everything empty. -/
def default : Action Op := ⟨none, [], []⟩

/-- Embeds `Action::get_name`. -/
def get_name (a : Action Op) : Option String := a.name

/-- Embeds `Action::set_name` (the `ToString` argument is taken as the
resulting `String`). -/
def set_name (a : Action Op) (new_name : String) : Action Op :=
  { a with name := some new_name }

/-- Embeds `Action::add_redo_operation`: push onto `apply_ops`. -/
def add_redo_operation (a : Action Op) (operation : Op) : Action Op :=
  { a with apply_ops := a.apply_ops ++ [operation] }

/-- Embeds `Action::add_undo_operation`: push onto `revert_ops`. -/
def add_undo_operation (a : Action Op) (operation : Op) : Action Op :=
  { a with revert_ops := a.revert_ops ++ [operation] }

/-- Embeds `Action::apply`: `self.apply_ops.iter().for_each(|o| o.apply(apply_to))`. -/
def apply [Operation Op For] (a : Action Op) (apply_to : For) : For :=
  a.apply_ops.foldl (fun t o => Operation.apply o t) apply_to

/-- Embeds `Action::revert`: `self.revert_ops.iter().for_each(|o| o.apply(apply_to))`. -/
def revert [Operation Op For] (a : Action Op) (apply_to : For) : For :=
  a.revert_ops.foldl (fun t o => Operation.apply o t) apply_to

end Action

/-- Embeds `struct UndoRedo<Op> { actions, tapehead }`. -/
structure UndoRedo (Op : Type _) where
  actions : List (Action Op)
  tapehead : Nat
deriving DecidableEq, Repr

namespace UndoRedo

/-- Embeds `impl Default for UndoRedo<Op>`: empty list, tapehead 0. -/
def default : UndoRedo Op := ⟨[], 0⟩

/-- Embeds `UndoRedo::clear_history`. -/
def clear_history (_u : UndoRedo Op) : UndoRedo Op :=
  { actions := [], tapehead := 0 }

/-- Embeds `UndoRedo::create_action`.  The Rust method returns
`&mut Action<Op>` pointing at the freshly pushed last element; here the new
history is returned and the handle is the last position of `actions`
(see `modify_last` for the embedding of mutation through that handle). -/
def create_action (u : UndoRedo Op) : UndoRedo Op :=
  let u' : UndoRedo Op :=
    if u.actions.length > u.tapehead then
      { u with actions := u.actions.take u.tapehead }
    else u
  { u' with actions := u'.actions ++ [Action.default] }

/-- Auxiliary: rewrite the last element of a list with `f`. -/
def modifyLastWith (f : α → α) : List α → List α
  | [] => []
  | [a] => [f a]
  | a :: b :: rest => a :: modifyLastWith f (b :: rest)

/-- Embeds use of the `&mut Action<Op>` handle returned by `create_action`:
any sequence of `set_name` / `add_redo_operation` / `add_undo_operation`
calls (or any other mutation through the exclusive reference) rewrites the
last element of `actions` in place. -/
def modify_last (u : UndoRedo Op) (f : Action Op → Action Op) : UndoRedo Op :=
  { u with actions := modifyLastWith f u.actions }

/-- Embeds `UndoRedo::redo`.  `self.actions.get(self.tapehead)` is
`u.actions[u.tapehead]?`; on `Some`, the tapehead is incremented (the
`checked_add` overflow panic cannot occur over `Nat`) and the action is
applied; on `None`, `Err(NothingToDo)` with no state change. -/
def redo [Operation Op For] (u : UndoRedo Op) (apply_to : For) :
    UndoRedo Op × For × Except UndoRedoError Unit :=
  match u.actions[u.tapehead]? with
  | some action =>
      ({ u with tapehead := u.tapehead + 1 }, action.apply apply_to, Except.ok ())
  | none => (u, apply_to, Except.error UndoRedoError.NothingToDo)

/-- Embeds `UndoRedo::undo`.  `self.tapehead.checked_sub(1)` fails exactly
when `tapehead = 0`; otherwise the tapehead is decremented first, and only
then is the action looked up — if the lookup fails the history keeps the
decremented tapehead while `Err(NothingToDo)` is returned. -/
def undo [Operation Op For] (u : UndoRedo Op) (apply_to : For) :
    UndoRedo Op × For × Except UndoRedoError Unit :=
  if u.tapehead = 0 then
    (u, apply_to, Except.error UndoRedoError.NothingToDo)
  else
    let u' : UndoRedo Op := { u with tapehead := u.tapehead - 1 }
    match u'.actions[u'.tapehead]? with
    | some action => (u', action.revert apply_to, Except.ok ())
    | none => (u', apply_to, Except.error UndoRedoError.NothingToDo)

end UndoRedo

/-- A concrete operation type over an `Int` target, as a consumer of the
crate would define it (one enum variant per edit kind); used for the
spec's integer scenario and for concrete instantiations. -/
inductive IntOp where
  | add : Int → IntOp
  | sub : Int → IntOp
  | mul : Int → IntOp
  | div : Int → IntOp
deriving DecidableEq, Repr

instance : Operation IntOp Int where
  apply o s :=
    match o with
    | .add n => s + n
    | .sub n => s - n
    | .mul n => s * n
    | .div n => s / n

/-- One `create_action` + populate (through the returned handle) + `redo`
round: the caller's standard commit protocol. -/
def commit [Operation Op For] (p : UndoRedo Op × For) (a : Action Op) :
    UndoRedo Op × For :=
  let u1 := (p.1.create_action).modify_last (fun _ => a)
  let r := u1.redo p.2
  (r.1, r.2.1)

/-- Run the commit protocol once per action in `acts`, left to right. -/
def commitAll [Operation Op For] (p : UndoRedo Op × For) (acts : List (Action Op)) :
    UndoRedo Op × For :=
  acts.foldl commit p

/-- One `undo` call, keeping history and target (discarding the result value). -/
def undoStep [Operation Op For] (p : UndoRedo Op × For) : UndoRedo Op × For :=
  ((p.1.undo p.2).1, (p.1.undo p.2).2.1)

/-- `n` successive `undo` calls. -/
def undoIter [Operation Op For] : Nat → UndoRedo Op × For → UndoRedo Op × For
  | 0, p => p
  | n + 1, p => undoIter n (undoStep p)

/-- The history states reachable from `Default` through the public
interface: `clear_history`, `create_action`, mutation of the new action
through the handle `create_action` returns, `redo` and `undo`. -/
inductive Reachable (For : Type _) [Operation Op For] : UndoRedo Op → Prop where
  | dflt : Reachable For UndoRedo.default
  | clear (u : UndoRedo Op) : Reachable For u → Reachable For u.clear_history
  | create (u : UndoRedo Op) : Reachable For u → Reachable For u.create_action
  | populate (u : UndoRedo Op) (f : Action Op → Action Op) :
      Reachable For u → Reachable For (u.modify_last f)
  | redo (u : UndoRedo Op) (t : For) : Reachable For u → Reachable For (u.redo t).1
  | undo (u : UndoRedo Op) (t : For) : Reachable For u → Reachable For (u.undo t).1

/-! Concrete traces used by the spec's integer scenario and as
counterexample / witness inputs. -/

/-- Scenario step 1: fresh history, first action populated with
redo-op `+5` and undo-op `-5` through the handle. -/
def scen_u1 : UndoRedo IntOp :=
  (UndoRedo.default.create_action).modify_last
    (fun a => (a.add_redo_operation (IntOp.add 5)).add_undo_operation (IntOp.sub 5))

/-- Scenario step 2: first `redo` on target `0`. -/
def scen_r1 : UndoRedo IntOp × Int × Except UndoRedoError Unit :=
  scen_u1.redo (0 : Int)

/-- Scenario step 3: second action populated with redo-op `*2` and
undo-op `/2`. -/
def scen_u2 : UndoRedo IntOp :=
  (scen_r1.1.create_action).modify_last
    (fun a => (a.add_redo_operation (IntOp.mul 2)).add_undo_operation (IntOp.div 2))

/-- Scenario step 4: second `redo`. -/
def scen_r2 : UndoRedo IntOp × Int × Except UndoRedoError Unit :=
  scen_u2.redo scen_r1.2.1

/-- Scenario step 5: first `undo`. -/
def scen_d1 : UndoRedo IntOp × Int × Except UndoRedoError Unit :=
  scen_r2.1.undo scen_r2.2.1

/-- Scenario step 6: second `undo`. -/
def scen_d2 : UndoRedo IntOp × Int × Except UndoRedoError Unit :=
  scen_d1.1.undo scen_d1.2.1

/-- Scenario step 7: third `undo` (expected to fail). -/
def scen_d3 : UndoRedo IntOp × Int × Except UndoRedoError Unit :=
  scen_d2.1.undo scen_d2.2.1

/-- Counterexample input: one action whose non-empty `revert_ops` do NOT
invert its non-empty `apply_ops` (both are `+1`), committed via the
standard create/populate/redo protocol from target `0`. -/
def badcommit : UndoRedo IntOp × Int :=
  commit (UndoRedo.default, (0 : Int)) ⟨none, [IntOp.add 1], [IntOp.add 1]⟩

/-- Counterexample input: the single `undo` after `badcommit`. -/
def badundo : UndoRedo IntOp × Int × Except UndoRedoError Unit :=
  badcommit.1.undo badcommit.2

/-- A concrete committed action with truly inverse operations (`+5` / `-5`),
used as witness input. -/
def invAction : Action IntOp := ⟨none, [IntOp.add 5], [IntOp.sub 5]⟩

/-- A history of two committed `invAction`s with one of them undone
(tapehead `1`, length `2`), used as witness input. -/
def midHistory : UndoRedo IntOp := ⟨[invAction, invAction], 1⟩

/-- A hypothetical broken history whose tapehead exceeds the action count,
used as witness input for the non-atomic `undo` error path. -/
def brokenHistory : UndoRedo IntOp := ⟨[], 2⟩

/-- A one-action history positioned before its action (tapehead `0`),
used as witness input. -/
def singleHistory : UndoRedo IntOp := ⟨[invAction], 0⟩

/-! Helper lemmas. -/

theorem modifyLastWith_concat (f : α → α) (xs : List α) (x : α) :
    UndoRedo.modifyLastWith f (xs ++ [x]) = xs ++ [f x] := by
  induction xs with
  | nil => rfl
  | cons a as ih =>
      cases as with
      | nil => rfl
      | cons b bs => simpa [UndoRedo.modifyLastWith] using ih

theorem modifyLastWith_length (f : α → α) (l : List α) :
    (UndoRedo.modifyLastWith f l).length = l.length := by
  induction l with
  | nil => rfl
  | cons a as ih =>
      cases as with
      | nil => rfl
      | cons b bs => simpa [UndoRedo.modifyLastWith] using ih

/-- C6: `Action::apply` runs `apply_ops` front to back in appended order and
`Action::revert` runs `revert_ops` front to back in appended order (not
reversed): an operation appended last via `add_redo_operation` /
`add_undo_operation` executes last; an empty action is a no-op both ways. -/
theorem action_apply_revert_order [Operation Op For] (a : Action Op) (op : Op) (t : For) :
    (a.add_redo_operation op).apply t = Operation.apply op (a.apply t) ∧
    (a.add_undo_operation op).revert t = Operation.apply op (a.revert t) ∧
    (Action.default : Action Op).apply t = t ∧
    (Action.default : Action Op).revert t = t := by
  refine ⟨?_, ?_, rfl, rfl⟩ <;>
    simp [Action.apply, Action.revert, Action.add_redo_operation,
      Action.add_undo_operation, List.foldl_append]

/-- C7: on a `Default`-constructed history both `undo` and `redo` fail with
`NothingToDo` and leave the history and the target unchanged. -/
theorem fresh_undo_redo_nothing [Operation Op For] (t : For) :
    (UndoRedo.default : UndoRedo Op).undo t =
      (UndoRedo.default, t, Except.error UndoRedoError.NothingToDo) ∧
    (UndoRedo.default : UndoRedo Op).redo t =
      (UndoRedo.default, t, Except.error UndoRedoError.NothingToDo) := by
  constructor <;> rfl

/-- C9: the spec's integer scenario: from target `0`, committing `+5`/`-5`
then `*2`/`/2` yields targets `5` then `10`; undoing twice yields `5` then
`0`; a third undo fails with `NothingToDo`. -/
theorem int_scenario :
    scen_r1.2.1 = 5 ∧ scen_r1.2.2 = Except.ok () ∧
    scen_r2.2.1 = 10 ∧ scen_r2.2.2 = Except.ok () ∧
    scen_d1.2.1 = 5 ∧ scen_d1.2.2 = Except.ok () ∧
    scen_d2.2.1 = 0 ∧ scen_d2.2.2 = Except.ok () ∧
    scen_d3.2.2 = Except.error UndoRedoError.NothingToDo := by
  refine ⟨rfl, rfl, rfl, rfl, rfl, rfl, rfl, rfl, rfl⟩

/-- C2: under the tapehead invariant, `redo` at the end of history fails
with `NothingToDo` changing nothing; otherwise it increments the tapehead
by 1, folds the `apply_ops` of the action at the pre-increment index over
the target front to back, keeps `actions` unchanged and returns `Ok(())`. -/
theorem redo_spec [Operation Op For] (u : UndoRedo Op) (t : For)
    (h : u.tapehead ≤ u.actions.length) :
    (u.tapehead = u.actions.length →
      u.redo t = (u, t, Except.error UndoRedoError.NothingToDo)) ∧
    (u.tapehead < u.actions.length →
      ∃ a, u.actions[u.tapehead]? = some a ∧
        u.redo t = ({ u with tapehead := u.tapehead + 1 },
          a.apply_ops.foldl (fun s o => Operation.apply o s) t, Except.ok ())) := by
  constructor
  · intro he
    simp only [UndoRedo.redo]
    rw [List.getElem?_eq_none (le_of_eq he.symm)]
  · intro hlt
    refine ⟨u.actions[u.tapehead], List.getElem?_eq_getElem hlt, ?_⟩
    simp only [UndoRedo.redo, List.getElem?_eq_getElem hlt]
    rfl

/-- C2 witness: `redo_spec` at `midHistory` (tapehead 1 of 2) and target 0. -/
theorem redo_spec_witness :
    midHistory.tapehead ≤ midHistory.actions.length ∧
    ((midHistory.tapehead = midHistory.actions.length →
       midHistory.redo (0 : Int) =
         (midHistory, 0, Except.error UndoRedoError.NothingToDo)) ∧
     (midHistory.tapehead < midHistory.actions.length →
       ∃ a, midHistory.actions[midHistory.tapehead]? = some a ∧
         midHistory.redo (0 : Int) =
           ({ midHistory with tapehead := midHistory.tapehead + 1 },
            a.apply_ops.foldl (fun s o => Operation.apply o s) (0 : Int),
            Except.ok ()))) :=
  ⟨by decide, redo_spec midHistory 0 (by decide)⟩

/-- C3: under the tapehead invariant, `undo` at tapehead 0 fails with
`NothingToDo` changing nothing; otherwise it decrements the tapehead by 1,
folds the `revert_ops` of the action at the post-decrement index over the
target front to back, keeps `actions` unchanged and returns `Ok(())`. -/
theorem undo_spec [Operation Op For] (u : UndoRedo Op) (t : For)
    (h : u.tapehead ≤ u.actions.length) :
    (u.tapehead = 0 →
      u.undo t = (u, t, Except.error UndoRedoError.NothingToDo)) ∧
    (u.tapehead ≠ 0 →
      ∃ a, u.actions[u.tapehead - 1]? = some a ∧
        u.undo t = ({ u with tapehead := u.tapehead - 1 },
          a.revert_ops.foldl (fun s o => Operation.apply o s) t, Except.ok ())) := by
  constructor
  · intro he
    simp only [UndoRedo.undo, if_pos he]
  · intro hne
    have hlt : u.tapehead - 1 < u.actions.length := by omega
    refine ⟨u.actions[u.tapehead - 1], List.getElem?_eq_getElem hlt, ?_⟩
    simp only [UndoRedo.undo, if_neg hne, List.getElem?_eq_getElem hlt]
    rfl

/-- C3 witness: `undo_spec` at `midHistory` (tapehead 1 of 2) and target 5. -/
theorem undo_spec_witness :
    midHistory.tapehead ≤ midHistory.actions.length ∧
    ((midHistory.tapehead = 0 →
       midHistory.undo (5 : Int) =
         (midHistory, 5, Except.error UndoRedoError.NothingToDo)) ∧
     (midHistory.tapehead ≠ 0 →
       ∃ a, midHistory.actions[midHistory.tapehead - 1]? = some a ∧
         midHistory.undo (5 : Int) =
           ({ midHistory with tapehead := midHistory.tapehead - 1 },
            a.revert_ops.foldl (fun s o => Operation.apply o s) (5 : Int),
            Except.ok ()))) :=
  ⟨by decide, undo_spec midHistory 5 (by decide)⟩

/-- C10: `undo`'s error is atomic only under the tapehead invariant: when
`tapehead > actions.length` the tapehead is still decremented before
`Err(NothingToDo)` is returned, so the history mutates despite the error;
under the invariant, an `Err(NothingToDo)` from `undo` implies the tapehead
was 0 and nothing changed. -/
theorem undo_error_atomicity [Operation Op For] (u : UndoRedo Op) (t : For) :
    (u.actions.length < u.tapehead →
      u.undo t = ({ u with tapehead := u.tapehead - 1 }, t,
        Except.error UndoRedoError.NothingToDo)) ∧
    (u.tapehead ≤ u.actions.length →
      (u.undo t).2.2 = Except.error UndoRedoError.NothingToDo →
      u.tapehead = 0 ∧ u.undo t = (u, t, Except.error UndoRedoError.NothingToDo)) := by
  constructor
  · intro hgt
    have hne : u.tapehead ≠ 0 := by omega
    simp only [UndoRedo.undo, if_neg hne]
    rw [List.getElem?_eq_none (by omega)]
  · intro hle herr
    by_cases he : u.tapehead = 0
    · exact ⟨he, by simp only [UndoRedo.undo, if_pos he]⟩
    · exfalso
      have hlt : u.tapehead - 1 < u.actions.length := by omega
      simp only [UndoRedo.undo, if_neg he, List.getElem?_eq_getElem hlt] at herr
      exact absurd herr (by simp)

/-- C10 witness: `undo_error_atomicity`'s first part at `brokenHistory`
(tapehead 2, no actions): the tapehead drops to 1 yet the call errors. -/
theorem undo_error_atomicity_witness :
    brokenHistory.actions.length < brokenHistory.tapehead ∧
    brokenHistory.undo (0 : Int) =
      ({ brokenHistory with tapehead := brokenHistory.tapehead - 1 }, 0,
       Except.error UndoRedoError.NothingToDo) :=
  ⟨by decide, (undo_error_atomicity brokenHistory 0).1 (by decide)⟩

/-- C5: when the `apply_ops` of `actions[tapehead]` followed by its
`revert_ops` are the identity on the target, `redo` then `undo` (no
intervening `create_action`) succeeds and restores both the target and the
tapehead to their values before the `redo`. -/
theorem redo_undo_roundtrip [Operation Op For] (u : UndoRedo Op) (t : For)
    (a : Action Op) (ha : u.actions[u.tapehead]? = some a)
    (hinv : a.revert (a.apply t) = t) :
    (u.redo t).2.2 = Except.ok () ∧
    ((u.redo t).1.undo (u.redo t).2.1) = (u, t, Except.ok ()) := by
  have hredo : u.redo t = (⟨u.actions, u.tapehead + 1⟩, a.apply t, Except.ok ()) := by
    simp only [UndoRedo.redo, ha]
  refine ⟨by rw [hredo], ?_⟩
  rw [hredo]
  simp only [UndoRedo.undo, if_neg (Nat.succ_ne_zero u.tapehead), Nat.add_sub_cancel, ha]
  rw [hinv]

/-- C5 witness: `redo_undo_roundtrip` at `singleHistory` (one `+5`/`-5`
action, tapehead 0) and target 0. -/
theorem redo_undo_roundtrip_witness :
    singleHistory.actions[singleHistory.tapehead]? = some invAction ∧
    invAction.revert (invAction.apply (0 : Int)) = 0 ∧
    ((singleHistory.redo (0 : Int)).2.2 = Except.ok () ∧
     ((singleHistory.redo (0 : Int)).1.undo (singleHistory.redo (0 : Int)).2.1) =
       (singleHistory, 0, Except.ok ())) :=
  ⟨by decide, by decide, redo_undo_roundtrip singleHistory 0 invAction (by decide) (by decide)⟩

/-- C1: under the tapehead invariant, `create_action` truncates `actions`
to the tapehead (discarding every action at or after the cursor), appends
one empty action, hands out the last slot, and leaves the tapehead alone,
so `actions.length = tapehead + 1`; hence after populating the new action
through the handle, exactly one `redo` succeeds and the next one fails
with `NothingToDo` — the discarded actions are unreachable. -/
theorem create_action_spec [Operation Op For] (u : UndoRedo Op)
    (f : Action Op → Action Op) (t : For)
    (h : u.tapehead ≤ u.actions.length) :
    u.create_action.actions = u.actions.take u.tapehead ++ [Action.default] ∧
    u.create_action.tapehead = u.tapehead ∧
    u.create_action.actions.getLast? = some Action.default ∧
    u.create_action.actions.length = u.tapehead + 1 ∧
    ((u.create_action.modify_last f).redo t).2.2 = Except.ok () ∧
    ((u.create_action.modify_last f).redo t).1.tapehead = u.tapehead + 1 ∧
    (((u.create_action.modify_last f).redo t).1.redo
        ((u.create_action.modify_last f).redo t).2.1).2.2 =
      Except.error UndoRedoError.NothingToDo := by
  have htk : (u.actions.take u.tapehead).length = u.tapehead := by
    simp only [List.length_take]
    omega
  have hc : u.create_action =
      ⟨u.actions.take u.tapehead ++ [Action.default], u.tapehead⟩ := by
    simp only [UndoRedo.create_action]
    split
    · rfl
    · rename_i hng
      rw [List.take_of_length_le (by omega)]
  have hw : u.create_action.modify_last f =
      ⟨u.actions.take u.tapehead ++ [f Action.default], u.tapehead⟩ := by
    rw [hc]
    simp [UndoRedo.modify_last, modifyLastWith_concat]
  have hget : (u.actions.take u.tapehead ++ [f Action.default])[u.tapehead]? =
      some (f Action.default) := by
    rw [List.getElem?_append_right (le_of_eq htk), htk]
    simp
  have hredo : (u.create_action.modify_last f).redo t =
      (⟨u.actions.take u.tapehead ++ [f Action.default], u.tapehead + 1⟩,
       (f Action.default).apply t, Except.ok ()) := by
    rw [hw]
    simp only [UndoRedo.redo, hget]
  refine ⟨by rw [hc], by rw [hc], ?_, ?_, by rw [hredo], by rw [hredo], ?_⟩
  · rw [hc]
    exact List.getLast?_concat _
  · rw [hc]
    simp [htk]
  · rw [hredo]
    simp only [UndoRedo.redo]
    rw [List.getElem?_eq_none (by simp [htk])]

/-- C1 witness: `create_action_spec` at `midHistory` (two committed
actions, one undone: tapehead 1, length 2), identity populate, target 0:
the second action is discarded, one new empty slot appears. -/
theorem create_action_spec_witness :
    midHistory.tapehead ≤ midHistory.actions.length ∧
    (midHistory.create_action.actions =
       midHistory.actions.take midHistory.tapehead ++ [Action.default] ∧
     midHistory.create_action.tapehead = midHistory.tapehead ∧
     midHistory.create_action.actions.getLast? = some Action.default ∧
     midHistory.create_action.actions.length = midHistory.tapehead + 1 ∧
     ((midHistory.create_action.modify_last id).redo (0 : Int)).2.2 = Except.ok () ∧
     ((midHistory.create_action.modify_last id).redo (0 : Int)).1.tapehead =
       midHistory.tapehead + 1 ∧
     (((midHistory.create_action.modify_last id).redo (0 : Int)).1.redo
         ((midHistory.create_action.modify_last id).redo (0 : Int)).2.1).2.2 =
       Except.error UndoRedoError.NothingToDo) :=
  ⟨by decide, create_action_spec midHistory id 0 (by decide)⟩

/-- C4: the tapehead invariant `0 ≤ tapehead ≤ actions.length` holds in
every history state reachable from `Default` through the public interface
(`clear_history`, `create_action` and its handle, `redo`, `undo`). -/
theorem tapehead_invariant [Operation Op For] (u : UndoRedo Op)
    (h : Reachable For u) :
    0 ≤ u.tapehead ∧ u.tapehead ≤ u.actions.length := by
  refine ⟨Nat.zero_le _, ?_⟩
  induction h with
  | dflt => exact Nat.le_refl 0
  | clear v _ _ => exact Nat.le_refl 0
  | create v _ ih =>
      simp only [UndoRedo.create_action]
      split
      · rename_i hgt
        simp only [List.length_append, List.length_take, List.length_singleton]
        omega
      · rename_i hng
        simp only [List.length_append, List.length_singleton]
        omega
  | populate v f _ ih =>
      simpa [UndoRedo.modify_last, modifyLastWith_length] using ih
  | redo v t _ ih =>
      cases hg : v.actions[v.tapehead]? with
      | some a =>
          have hlt : v.tapehead < v.actions.length :=
            (List.getElem?_eq_some.mp hg).1
          simp only [UndoRedo.redo, hg]
          omega
      | none => simpa [UndoRedo.redo, hg] using ih
  | undo v t _ ih =>
      by_cases he : v.tapehead = 0
      · simpa [UndoRedo.undo, if_pos he] using ih
      · cases hg : v.actions[v.tapehead - 1]? with
        | some a =>
            simp only [UndoRedo.undo, if_neg he, hg]
            omega
        | none =>
            simp only [UndoRedo.undo, if_neg he, hg]
            omega

/-- C4 witness: the reachable state `create_action` of `Default`
satisfies the invariant. -/
theorem tapehead_invariant_witness :
    Reachable Int (UndoRedo.default : UndoRedo IntOp).create_action ∧
    (0 ≤ (UndoRedo.default : UndoRedo IntOp).create_action.tapehead ∧
     (UndoRedo.default : UndoRedo IntOp).create_action.tapehead ≤
       (UndoRedo.default : UndoRedo IntOp).create_action.actions.length) :=
  have hr : Reachable Int (UndoRedo.default : UndoRedo IntOp).create_action :=
    Reachable.create _ Reachable.dflt
  ⟨hr, tapehead_invariant _ hr⟩

/-- One commit round from a fully-redone history appends the populated
action and advances the tapehead past it. -/
theorem commit_eq [Operation Op For] (u : UndoRedo Op) (t : For) (a : Action Op)
    (h : u.tapehead = u.actions.length) :
    commit (u, t) a = (⟨u.actions ++ [a], u.actions.length + 1⟩, a.apply t) := by
  have hc : (u.create_action).modify_last (fun _ => a) =
      ⟨u.actions ++ [a], u.tapehead⟩ := by
    simp only [UndoRedo.create_action]
    rw [if_neg (by omega)]
    simp [UndoRedo.modify_last, modifyLastWith_concat]
  have hget : (u.actions ++ [a])[u.tapehead]? = some a := by
    rw [h, List.getElem?_append_right (Nat.le_refl _), Nat.sub_self]
    rfl
  simp only [commit, hc, UndoRedo.redo, hget]
  rw [h]

/-- Committing a whole list of actions from a fully-redone history appends
them all, ends fully redone, and folds their `apply`s over the target. -/
theorem commitAll_eq [Operation Op For] (acts : List (Action Op))
    (u : UndoRedo Op) (t : For) (h : u.tapehead = u.actions.length) :
    commitAll (u, t) acts =
      (⟨u.actions ++ acts, (u.actions ++ acts).length⟩,
       acts.foldl (fun s a => a.apply s) t) := by
  induction acts generalizing u t with
  | nil =>
      obtain ⟨as, th⟩ := u
      simp only at h
      subst h
      simp [commitAll]
  | cons a as ih =>
      simp only [commitAll, List.foldl_cons] at *
      rw [commit_eq u t a h]
      rw [ih ⟨u.actions ++ [a], u.actions.length + 1⟩ (a.apply t) (by simp)]
      simp [List.append_assoc]

/-- Undoing `acts.length` times from a history whose applied segment ends
with `acts` (true inverses) peels them all off the target and retreats the
tapehead past them, leaving the actions list untouched. -/
theorem undoIter_eq [Operation Op For] (acts : List (Action Op))
    (pre post : List (Action Op)) (t0 : For)
    (hinv : ∀ a ∈ acts, ∀ s : For, a.revert (a.apply s) = s) :
    undoIter acts.length
        (⟨pre ++ acts ++ post, pre.length + acts.length⟩,
         acts.foldl (fun s a => a.apply s) t0) =
      (⟨pre ++ acts ++ post, pre.length⟩, t0) := by
  induction acts using List.reverseRecOn generalizing post t0 with
  | nil => simp [undoIter]
  | append_singleton as a ih =>
      have hmem : a ∈ as ++ [a] := by simp
      have hL : (as ++ [a]).length = as.length + 1 := by simp
      rw [hL]
      simp only [undoIter]
      have hfold : (as ++ [a]).foldl (fun s b => b.apply s) t0 =
          a.apply (as.foldl (fun s b => b.apply s) t0) := by
        simp [List.foldl_append]
      have hlist : pre ++ (as ++ [a]) ++ post = (pre ++ as) ++ (a :: post) := by
        simp [List.append_assoc]
      have hget : (pre ++ (as ++ [a]) ++ post)[pre.length + as.length]? = some a := by
        rw [hlist]
        rw [List.getElem?_append_right (by simp)]
        simp
      have hstep : undoStep
          ((⟨pre ++ (as ++ [a]) ++ post, pre.length + (as.length + 1)⟩ :
              UndoRedo Op),
           (as ++ [a]).foldl (fun s b => b.apply s) t0) =
          (⟨pre ++ (as ++ [a]) ++ post, pre.length + as.length⟩,
           as.foldl (fun s b => b.apply s) t0) := by
        simp only [undoStep, UndoRedo.undo]
        rw [if_neg (by omega)]
        have hsub : pre.length + (as.length + 1) - 1 = pre.length + as.length := by omega
        simp only [hsub, hget, hfold]
        rw [hinv a hmem]
      rw [hstep]
      have ih2 := ih (a :: post) t0 (fun b hb s => hinv b (by simp [hb]) s)
      rw [hlist]
      exact ih2

/-- C8 counterexample: one committed action with non-empty `apply_ops` and
non-empty `revert_ops` that are not inverses (both `+1`): the commit's
`redo` succeeds, the single `undo` succeeds, but the target ends at `2`,
not at its original `0`. -/
theorem commit_undo_counterexample :
    badcommit = (⟨[⟨none, [IntOp.add 1], [IntOp.add 1]⟩], 1⟩, 1) ∧
    badundo = (⟨[⟨none, [IntOp.add 1], [IntOp.add 1]⟩], 0⟩, 2, Except.ok ()) ∧
    badundo.2.1 ≠ (0 : Int) :=
  ⟨rfl, rfl, by decide⟩

/-- C8 (amended): for every sequence of actions with non-empty operation
lists committed via `create_action` + populate + `redo` from a fresh
history, PROVIDED each action's `revert_ops` invert its `apply_ops`,
undoing exactly N times restores the target to its original state (with
the tapehead back at 0), and the (N+1)-th `undo` fails with `NothingToDo`. -/
theorem commit_then_undo_all [Operation Op For] (acts : List (Action Op)) (t0 : For)
    (hne : ∀ a ∈ acts, a.apply_ops ≠ [] ∧ a.revert_ops ≠ [])
    (hinv : ∀ a ∈ acts, ∀ s : For, a.revert (a.apply s) = s) :
    (commitAll (UndoRedo.default, t0) acts).1.tapehead = acts.length ∧
    undoIter acts.length (commitAll (UndoRedo.default, t0) acts) =
      (⟨acts, 0⟩, t0) ∧
    ((undoIter acts.length (commitAll (UndoRedo.default, t0) acts)).1.undo
        (undoIter acts.length (commitAll (UndoRedo.default, t0) acts)).2).2.2 =
      Except.error UndoRedoError.NothingToDo := by
  have hca := commitAll_eq acts UndoRedo.default t0 rfl
  have h1 : undoIter acts.length (commitAll (UndoRedo.default, t0) acts) =
      (⟨acts, 0⟩, t0) := by
    rw [hca]
    have := undoIter_eq acts [] [] t0 hinv
    simpa [UndoRedo.default] using this
  refine ⟨by rw [hca]; simp [UndoRedo.default], h1, ?_⟩
  rw [h1]
  rfl

/-- C8 witness: `commit_then_undo_all` at the single `+5`/`-5` action and
target 0. -/
theorem commit_then_undo_all_witness :
    (∀ a ∈ [invAction], a.apply_ops ≠ [] ∧ a.revert_ops ≠ []) ∧
    (∀ a ∈ [invAction], ∀ s : Int, a.revert (a.apply s) = s) ∧
    ((commitAll (UndoRedo.default, (0 : Int)) [invAction]).1.tapehead =
       [invAction].length ∧
     undoIter [invAction].length (commitAll (UndoRedo.default, (0 : Int)) [invAction]) =
       (⟨[invAction], 0⟩, (0 : Int)) ∧
     ((undoIter [invAction].length
          (commitAll (UndoRedo.default, (0 : Int)) [invAction])).1.undo
         (undoIter [invAction].length
           (commitAll (UndoRedo.default, (0 : Int)) [invAction])).2).2.2 =
       Except.error UndoRedoError.NothingToDo) := by
  have hne : ∀ a ∈ [invAction], a.apply_ops ≠ [] ∧ a.revert_ops ≠ [] := by
    intro a ha
    rw [List.mem_singleton] at ha
    subst ha
    exact ⟨by decide, by decide⟩
  have hinv : ∀ a ∈ [invAction], ∀ s : Int, a.revert (a.apply s) = s := by
    intro a ha s
    rw [List.mem_singleton] at ha
    subst ha
    show s + 5 - 5 = s
    omega
  exact ⟨hne, hinv, commit_then_undo_all [invAction] 0 hne hinv⟩

end MichisUndoRedo
